import Mathlib

/-!
Verification development for the emily-chess review tool.

The chess rules themselves are an external library (`shakmaty`), treated as
opaque: positions and moves are type parameters equipped with a `play`
function and an intrinsic-outcome query.  The data structures and algorithms
below are shallow embeddings of the Rust sources:

* `Score`, `Score.cmp`, `Score.display` — `src/emily-cli/src/uci/proto.rs`
* `Variation`, `PosInfo`, `Knowledge` and its operations —
  `src/emily-cli/src/knowledge.rs`
* `UciMsg`, `InfoStream` — `src/emily-cli/src/uci/proto.rs`
* `write_result` / `write_tags` — `src/emily-cli/src/knowledge/pgn.rs`
* the dispatcher counter model — `src/emily-cli/src/rev/dispatcher.rs`
-/

/-- Side to move / winner, mirroring `shakmaty::Color`. -/
inductive Color
  | white
  | black
deriving DecidableEq, Repr

/-- Game outcome, mirroring `shakmaty::Outcome`. -/
inductive Outcome
  | draw
  | decisive (winner : Color)
deriving DecidableEq, Repr

/-- Engine score evaluation, mirroring `enum Score` in `uci/proto.rs`.
`Cp` carries an `i16` value and `Mate` an `i8` value; the embedding uses
`Int` since the comparison and rendering logic only ever compares, negates
and divides the stored value. -/
inductive Score
  | Cp (n : Int)
  | Mate (n : Int)
deriving DecidableEq, Repr

namespace Score

/-- Embedding of `impl Ord for Score` (`uci/proto.rs`), arm by arm in source
order, including the guards exactly as written (`*n >= 0`, `*m < 1`, ...). -/
def cmp : Score → Score → Ordering
  | Cp n, Cp m => compare n m
  | Mate n, Cp _ => if 0 ≤ n then .gt else .lt
  | Cp _, Mate m => if 0 ≤ m then .lt else .gt
  | Mate n, Mate m =>
    if 0 ≤ n ∧ m < 1 then .gt
    else if n < 1 ∧ 0 ≤ m then .gt
    else if 0 ≤ n ∧ 0 ≤ m then compare m n
    else compare n m

/-- Reduction of an integer into the `i16` range by two's-complement
wrapping (explicit `% 2^16`). -/
def wrap16 (n : Int) : Int :=
  (n + 32768) % 65536 - 32768

/-- The value `i16::abs` computes in release builds: the mathematical
absolute value wrapped back into the `i16` range, so `i16abs (-32768) =
-32768` (debug builds panic on that one input instead). -/
def i16abs (n : Int) : Int :=
  wrap16 (n.natAbs : Int)

/-- Embedding of `impl Display for Score` (`uci/proto.rs`): `Cp` prints the
truncating `i16` division by 100, a dot, then `cp.abs() % 100` where the
`abs` is the wrapping `i16` absolute value (`i16abs`) and `%` is Rust's
truncated remainder (sign of the dividend), so at `cp = -32768` the
fraction renders signed; `Mate` prints `#` and the raw value. -/
def display : Score → String
  | Cp cp => toString (Int.tdiv cp 100) ++ "." ++ toString (Int.tmod (i16abs cp) 100)
  | Mate m => "#" ++ toString m

end Score

/-- Interface of the external chess library (`shakmaty`), as the spec
requires: `play` yields the successor position or an error, `outcome` the
intrinsic outcome of a position. -/
structure ChessLib (P M : Type) where
  play : P → M → Except String P
  outcome : P → Option Outcome

/-- A single variation (`struct Variation` in `knowledge.rs`): moves, the
aligned position indices (root included), and the optional outcome. -/
structure Variation (M : Type) where
  moves : List M
  positions : List Nat
  outcome : Option Outcome
deriving DecidableEq, Repr

namespace Variation

/-- Rust `Variation::new`: a no-moves variation ending on the root. -/
def new (outcome : Option Outcome) : Variation M :=
  ⟨[], [0], outcome⟩

/-- Rust `Variation::repetition`: the last position index (0 for an empty list)
occurs at least three times. -/
def repetition (v : Variation M) : Bool :=
  let lastidx := v.positions.getLast?.getD 0
  3 ≤ v.positions.count lastidx

end Variation

/-- Per-position data (`struct PosInfo` in `knowledge.rs`).  The Rust `moves`
field maps each considered move to a `MoveInfo`, which is a unit struct, so
the embedding keeps the key list. -/
structure PosInfo (P M : Type) where
  pos : P
  moves : List M
  eval : Option Score
deriving DecidableEq, Repr

namespace PosInfo

/-- Rust `PosInfo::new`. -/
def new (pos : P) : PosInfo P M :=
  ⟨pos, [], none⟩

/-- Rust `PosInfo::update_eval`. -/
def update_eval (info : PosInfo P M) (e : Score) : PosInfo P M :=
  { info with eval := some e }

end PosInfo

/-- The knowledge base (`struct Knowledge` in `knowledge.rs`): dense position
store, the dedup index (`HashMap<Chess, usize>`, embedded as an association
list), the variations and the mainline pointer. -/
structure Knowledge (P M : Type) where
  positions : List (PosInfo P M)
  index : List (P × Nat)
  variations : List (Variation M)
  main : Nat
deriving DecidableEq, Repr

/-- Association-list lookup for the dedup index. -/
def idxFind {P : Type} [DecidableEq P] : List (P × Nat) → P → Option Nat
  | [], _ => none
  | (q, i) :: rest, p => if p = q then some i else idxFind rest p

namespace Knowledge

variable {P M : Type} [DecidableEq P] [DecidableEq M]

/-- Rust `Knowledge::new`: the root is interned at index 0 and one empty variation
with the root's intrinsic outcome is created. -/
def new (lib : ChessLib P M) (root : P) : Knowledge P M :=
  { positions := [PosInfo.new root]
    index := [(root, 0)]
    variations := [Variation.new (lib.outcome root)]
    main := 0 }

/-- The index chosen by `self.index.entry(afterfen.clone()).or_insert(self.positions.len())`
in `Knowledge::add_move`: the existing entry if present, the current
position-vector length otherwise. -/
def internIdx (k : Knowledge P M) (p : P) : Nat :=
  (idxFind k.index p).getD k.positions.length

/-- The interning step of `Knowledge::add_move`: the `entry(..).or_insert(..)`
insertion into the index, followed by the conditional
`self.positions.push(PosInfo::new(afterfen))` guarded by
`afteridx == self.positions.len()`. -/
def internK (k : Knowledge P M) (p : P) : Knowledge P M :=
  { k with
    index :=
      match idxFind k.index p with
      | some _ => k.index
      | none => k.index ++ [(p, k.positions.length)]
    positions :=
      if internIdx k p = k.positions.length then k.positions ++ [PosInfo.new p]
      else k.positions }

/-- Rust `Knowledge::add_move` (`knowledge.rs`), step for step: the bounds
`ensure`, the already-included short-circuit comparing `moves.get(hm + 1)`
and returning `positions[hm + 2]`, the conclusion `ensure`, playing the
move, interning the successor (`internK` / `internIdx`), branching or
in-place extension, the pushes, and the outcome update.  Vector-index panics
are embedded as distinguished errors.  Returns the new state, the target
variation index and the returned position index. -/
def add_move (lib : ChessLib P M) (k : Knowledge P M) (vidx hm : Nat) (mov : M) :
    Except String (Knowledge P M × Nat × Nat) :=
  match k.variations.get? vidx with
  | none => .error "panic: no variation at index"
  | some variation =>
    if hm ≤ variation.moves.length then
      if variation.moves.get? (hm + 1) = some mov then
        match variation.positions.get? (hm + 2) with
        | none => .error "panic: no position in variation"
        | some posidx =>
          if posidx < k.positions.length then .ok (k, vidx, posidx)
          else .error "panic: no position at index"
      else if hm < variation.moves.length ∨ variation.outcome = none then
        match variation.positions.get? hm with
        | none => .error "panic: no position in variation"
        | some beforeidx =>
          match k.positions.get? beforeidx with
          | none => .error "panic: no position at index"
          | some before =>
            match lib.play before.pos mov with
            | .error e => .error e
            | .ok afterfen =>
              let outcome0 := lib.outcome afterfen
              let afteridx := internIdx k afterfen
              let k2 := internK k afterfen
              let base :=
                if variation.moves.length = hm then variation
                else ⟨variation.moves.take hm, variation.positions.take (hm + 1), none⟩
              let vidx' := if variation.moves.length = hm then vidx else k.variations.length
              let outcome' :=
                match outcome0 with
                | some o => some o
                | none =>
                  if Variation.repetition
                      ⟨base.moves ++ [mov], base.positions ++ [afteridx], base.outcome⟩
                  then some Outcome.draw else none
              let extended : Variation M :=
                ⟨base.moves ++ [mov], base.positions ++ [afteridx], outcome'⟩
              let variations' :=
                if variation.moves.length = hm then k2.variations.set vidx extended
                else k2.variations ++ [extended]
              .ok ({ k2 with variations := variations' }, vidx', afteridx)
      else .error "Extending variation beyond game conclusion"
    else .error "Extending variation after its last move"

/-- Rust `PosInfo::update_eval` reached through `Knowledge::position_mut` /
`variation_hm_mut`: update the evaluation of the position at `idx`
(`none` models the vector-index panic). -/
def update_eval (k : Knowledge P M) (idx : Nat) (e : Score) : Option (Knowledge P M) :=
  match k.positions.get? idx with
  | some info => some { k with positions := k.positions.set idx (info.update_eval e) }
  | none => none

/-- Rust `Knowledge::update_mainline`. -/
def update_mainline (k : Knowledge P M) (fidx tidx : Nat) : Knowledge P M :=
  if fidx = k.main ∧ tidx < k.variations.length then { k with main := tidx } else k

/-- States reachable from `Knowledge::new` by the three mutating
operations. -/
inductive Reachable (lib : ChessLib P M) : Knowledge P M → Prop
  | new (root : P) : Reachable lib (Knowledge.new lib root)
  | add_move {k k' : Knowledge P M} {vidx hm v a : Nat} {mov : M} :
      Reachable lib k → k.add_move lib vidx hm mov = .ok (k', v, a) → Reachable lib k'
  | update_eval {k k' : Knowledge P M} {idx : Nat} {e : Score} :
      Reachable lib k → k.update_eval idx e = some k' → Reachable lib k'
  | update_mainline {k : Knowledge P M} {fidx tidx : Nat} :
      Reachable lib k → Reachable lib (k.update_mainline fidx tidx)

/-- The dedup-index invariant: the index maps the position stored at `i`
back to `i`, and every index entry points at the stored position holding
exactly that chess position. -/
def InvIndex (k : Knowledge P M) : Prop :=
  (∀ i info, k.positions.get? i = some info → idxFind k.index info.pos = some i) ∧
  (∀ p n, (p, n) ∈ k.index → ∃ info, k.positions.get? n = some info ∧ info.pos = p)

end Knowledge

/-- A toy chess library over `Nat` states and moves, used to evaluate the
embedded operations on concrete inputs: playing move `m` always reaches
state `m`, and state 3 is a win for white. -/
def toyLib : ChessLib Nat Nat :=
  { play := fun _ m => .ok m
    outcome := fun p => if p = 3 then some (.decisive .white) else none }

/-- A toy chess library whose every position is already drawn. -/
def toyDrawLib : ChessLib Nat Nat :=
  { play := fun _ m => .ok m
    outcome := fun _ => some .draw }

/-- The knowledge reached from `toyLib` root 0 after adding move 1 at
halfmove 0 of variation 0. -/
def k1ex : Knowledge Nat Nat :=
  ⟨[⟨0, [], none⟩, ⟨1, [], none⟩], [(0, 0), (1, 1)], [⟨[1], [0, 1], none⟩], 0⟩

/-- The knowledge produced by the second `add_move` of claim C1's failing
input: a duplicate branch variation has been pushed. -/
def k2ex : Knowledge Nat Nat :=
  ⟨k1ex.positions, k1ex.index, [⟨[1], [0, 1], none⟩, ⟨[1], [0, 1], none⟩], 0⟩

/-- The knowledge reached from `toyLib` root 0 after the moves 1, 2, 3 on
variation 0; state 3 is terminal, so the variation's outcome is a white
win. -/
def k3ex : Knowledge Nat Nat :=
  ⟨[⟨0, [], none⟩, ⟨1, [], none⟩, ⟨2, [], none⟩, ⟨3, [], none⟩],
   [(0, 0), (1, 1), (2, 2), (3, 3)],
   [⟨[1, 2, 3], [0, 1, 2, 3], some (.decisive .white)⟩], 0⟩

/-- Messages received from the engine (`enum Msg` in `uci/proto.rs`),
parametrized by the move and info payload types. -/
inductive UciMsg (B I : Type)
  | id (name : Option String)
  | uciok
  | readyok
  | bestmove (best : B)
  | info (data : I)
deriving DecidableEq, Repr

/-- The state of `struct InfoStream` (`uci/proto.rs`): the cached best move,
`some` once `bestmove` has been observed. -/
structure InfoStream (B : Type) where
  best : Option B
deriving DecidableEq, Repr

namespace InfoStream

/-- Rust `InfoStream::info` (`uci/proto.rs`): loop on `recv` — on `bestmove`
cache it and return `none`, on `info` return it, skip everything else; an
exhausted stream is the "Engine stdout closed" receive error.  Exactly as in
the source, the cached `best` is never consulted. -/
def info {B I : Type} (s : InfoStream B) :
    List (UciMsg B I) → Except String (Option I × InfoStream B × List (UciMsg B I))
  | [] => .error "Engine stdout closed"
  | msg :: rest =>
    match msg with
    | .bestmove b => .ok (none, { best := some b }, rest)
    | .info i => .ok (some i, s, rest)
    | _ => info s rest

end InfoStream

/-- Rust `Pgn::write_result` (`knowledge/pgn.rs`): the result token derived from
the stored outcome. -/
def write_result (outcome : Option Outcome) : String :=
  match outcome with
  | some .draw => "1/2-1/2"
  | some (.decisive .white) => "1-0"
  | some (.decisive .black) => "0-1"
  | none => "*"

/-- Rust `Pgn::write_tags` (`knowledge/pgn.rs`): the tag block exactly as the
source emits it, chunk for chunk — note the `[Event "?"]` line is written
twice in the source.  `date` stands for the `Local::now` formatting, and
`rootIsStd` for the `self.root != Chess::new()` test guarding the
`SetUp`/`FEN` tags. -/
def write_tags (date : String) (outcome : Option Outcome)
    (rootIsStd : Bool) (rootFen : String) : String :=
  "[Event \"?\"]\n" ++
  "[Event \"?\"]\n" ++
  "[Site \"?\"]\n" ++
  "[Date \"" ++ date ++ "\"]\n" ++
  "[Round \"?\"]\n" ++
  "[White \"?\"]\n" ++
  "[Black \"?\"]\n" ++
  "[Result \"" ++ write_result outcome ++ "\"]\n" ++
  (if rootIsStd then "" else "[SetUp \"1\"]" ++ "[FEN \"" ++ rootFen ++ "\"]\n")

/-- The seven-tag header block as the specification words it (each tag
exactly once, in order); kept separate from `write_tags` so the two can be
compared. -/
def specSevenTags (date : String) (result : String) : String :=
  "[Event \"?\"]\n" ++
  "[Site \"?\"]\n" ++
  "[Date \"" ++ date ++ "\"]\n" ++
  "[Round \"?\"]\n" ++
  "[White \"?\"]\n" ++
  "[Black \"?\"]\n" ++
  "[Result \"" ++ result ++ "\"]\n"

/-- Per-processor dispatcher bookkeeping (`struct ProcessorMeta` in
`rev/dispatcher.rs` plus the channel/future state the loop owns): the
`total` and `completed` counters, the number of positions sitting in the
processor's queue, and the number of in-flight `process` futures. -/
structure ProcState where
  total : Nat
  completed : Nat
  queued : Nat
  processing : Nat
deriving DecidableEq, Repr

/-- One `sender.send` of `Dispatcher::schedule_pos`: on success the message
is queued and `total` is bumped; on failure (receiver gone) nothing
happens. -/
def schedOne (sent : Bool) (m : ProcState) : ProcState :=
  if sent then { m with total := m.total + 1, queued := m.queued + 1 } else m

/-- Rust `Dispatcher::schedule_pos` for a single position: every processor is
sent the position, each send succeeding or failing individually. -/
def schedPos (ps : List ProcState) (sent : List Bool) : List ProcState :=
  List.zipWith schedOne sent ps

/-- Replace the processor at index `i` by `f` of it. -/
def updAt : List ProcState → Nat → (ProcState → ProcState) → List ProcState
  | [], _, _ => []
  | m :: rest, 0, f => f m :: rest
  | m :: rest, n + 1, f => m :: updAt rest n f

/-- Rust `Dispatcher::all_done`: every processor's `total` equals its
`completed`. -/
def allDone (ps : List ProcState) : Bool :=
  ps.all fun m => m.total == m.completed

/-- Conservation of dispatched positions for one processor: everything sent
is queued, being processed, or completed. -/
def ProcState.balanced (m : ProcState) : Prop :=
  m.completed + m.queued + m.processing = m.total

/-- One iteration of the `select!` in `Dispatcher::dispatch`:
scheduling a position to each queue, dequeueing a position that
`should_process` rejects or fails on (counted completed immediately),
dequeueing a position into an in-flight `process` future, or an in-flight
future resolving (counted completed, possibly followed by `sched` steps for
its successors).  The heartbeat arm does not change the counters. -/
inductive DStep : List ProcState → List ProcState → Prop
  | sched (ps : List ProcState) (sent : List Bool) (h : sent.length = ps.length) :
      DStep ps (schedPos ps sent)
  | recvSkip (ps : List ProcState) (i : Nat) (m : ProcState)
      (hm : ps.get? i = some m) (hq : 0 < m.queued) :
      DStep ps (updAt ps i fun m =>
        { m with queued := m.queued - 1, completed := m.completed + 1 })
  | recvStart (ps : List ProcState) (i : Nat) (m : ProcState)
      (hm : ps.get? i = some m) (hq : 0 < m.queued) :
      DStep ps (updAt ps i fun m =>
        { m with queued := m.queued - 1, processing := m.processing + 1 })
  | finish (ps : List ProcState) (i : Nat) (m : ProcState)
      (hm : ps.get? i = some m) (hp : 0 < m.processing) :
      DStep ps (updAt ps i fun m =>
        { m with processing := m.processing - 1, completed := m.completed + 1 })

/-- Dispatcher states reachable from `n` freshly built processors
(`DispatcherBuilder::build` zero-initializes every counter). -/
inductive DReach (n : Nat) : List ProcState → Prop
  | init : DReach n (List.replicate n ⟨0, 0, 0, 0⟩)
  | step {ps ps' : List ProcState} : DReach n ps → DStep ps ps' → DReach n ps'

/-- Claim C2: the comparison on `Score` would be a valid total order
(antisymmetric with `cmp a a = Equal`, transitive, total) satisfying
`Mate 1 > Mate 5 > Cp 9999 > Cp 0 > Cp (-9999) > Mate (-5) > Mate (-1)`.
The code violates this: `cmp (Mate 0) (Mate 0) = Greater` (not `Equal`),
`cmp (Mate 1) (Mate (-5))` and `cmp (Mate (-5)) (Mate 1)` are both
`Greater` (antisymmetry fails), and the chain link `Mate (-5) > Mate (-1)`
evaluates to `Less`.  This theorem evaluates the code at those inputs. -/
theorem score_cmp_not_total_order :
    Score.cmp (.Mate 0) (.Mate 0) = .gt ∧
    Score.cmp (.Mate 1) (.Mate (-5)) = .gt ∧
    Score.cmp (.Mate (-5)) (.Mate 1) = .gt ∧
    Score.cmp (.Mate (-5)) (.Mate (-1)) = .lt := by
  decide

/-- Claim C3: among mates with non-negative move counts the comparison would
be the reversed comparison of the counts, so `cmp (Mate 5) (Mate 0)` should
be `Less` and `cmp (Mate 0) (Mate 5)` should be `Greater`.  The code returns
`Greater` in both directions (the guards `m < 1` / `n < 1` swallow the
count 0), which this theorem evaluates; the reversed comparison of the
counts is shown alongside for contrast. -/
theorem score_cmp_mate_zero_divergence :
    Score.cmp (.Mate 5) (.Mate 0) = .gt ∧
    Score.cmp (.Mate 0) (.Mate 5) = .gt ∧
    compare (0 : Int) 5 = .lt ∧ compare (5 : Int) 0 = .gt := by
  decide

/-- Counterexample to claim C10 as stated: at the representable centipawn
value `-32768` (`i16::MIN`), `cp.abs()` overflows — release builds wrap and
render `"-327.-68"`, a fractional part carrying a sign (debug builds panic
outright) — so the claimed universal rendering `n / 100`, dot, `|n| % 100`
with no sign on the fraction is false there. -/
theorem score_display_cp_min_counterexample :
    Score.display (.Cp (-32768)) = "-327.-68" ∧
    Score.display (.Cp (-32768))
      ≠ toString (Int.tdiv (-32768) 100) ++ "." ++ toString (Int.natAbs (-32768) % 100) :=
  ⟨rfl, by decide⟩

/-- Claim C10 amended: for every representable `i16` centipawn value except
`i16::MIN = -32768`, the `Display` rendering of `Cp n` is the string of
`n / 100` (truncating division), a dot, then `|n| % 100` without padding or
sign; as a consequence `Cp n` and `Cp (-n)` render identically for
`-99 ≤ n ≤ -1`, and `Cp 5` renders as `"0.5"`. -/
theorem score_display_cp_spec :
    (∀ n : Int, -32767 ≤ n → n ≤ 32767 →
      Score.display (.Cp n)
        = toString (Int.tdiv n 100) ++ "." ++ toString (n.natAbs % 100)) ∧
    (∀ n : Int, -99 ≤ n → n ≤ -1 →
      Score.display (.Cp n) = Score.display (.Cp (-n))) ∧
    Score.display (.Cp 5) = "0.5" := by
  refine ⟨fun n h1 h2 => ?_, fun n h1 h2 => ?_, rfl⟩
  · have hw : Score.i16abs n = (n.natAbs : Int) := by
      unfold Score.i16abs Score.wrap16
      omega
    simp only [Score.display]
    rw [hw]
    rfl
  · interval_cases n <;> rfl

/-- Witness for C10 at `n = -42`: both signs render as `"0.42"`. -/
theorem score_display_cp_spec_witness :
    Score.display (.Cp (-42)) = Score.display (.Cp (-(-42))) :=
  score_display_cp_spec.2.1 (-42) (by decide) (by decide)

/-- Claim C1: when `variations[v].moves[hm]` equals the added move, the claim
says `add_move` returns the unchanged index `v` and `positions[hm+1]` with
no mutation.  The code instead compares at `hm + 1`, so on the failing input
(variation `[1]` over positions `[0, 1]`, `add_move(0, 0, 1)`) it falls
through, pushes a duplicate branch variation, and returns variation index 1:
the returned index changes and `Knowledge` is mutated. -/
theorem add_move_already_next_divergence :
    Knowledge.add_move toyLib (Knowledge.new toyLib 0) 0 0 1 = .ok (k1ex, 0, 1) ∧
    k1ex.variations = [⟨[1], [0, 1], none⟩] ∧
    Knowledge.add_move toyLib k1ex 0 0 1 = .ok (k2ex, 1, 1) ∧
    k2ex.variations.length = 2 ∧ k2ex ≠ k1ex :=
  ⟨rfl, rfl, rfl, rfl, by decide⟩

/-- An index with a `some` lookup is in bounds. -/
theorem list_get?_some_lt {α : Type _} {l : List α} {i : Nat} {b : α}
    (h : l.get? i = some b) : i < l.length := by
  by_contra hlen
  rw [List.get?_eq_none.mpr (le_of_not_lt hlen)] at h
  exact Option.noConfusion h

/-- A successful association-list lookup returns a listed pair. -/
theorem idxFind_mem {P : Type} [DecidableEq P] {l : List (P × Nat)} {p : P} {i : Nat}
    (h : idxFind l p = some i) : (p, i) ∈ l := by
  induction l with
  | nil => exact Option.noConfusion h
  | cons hd tl ih =>
    obtain ⟨q, j⟩ := hd
    by_cases hpq : p = q
    · rw [idxFind, if_pos hpq] at h
      obtain rfl := Option.some.inj h
      exact hpq ▸ List.mem_cons_self _ _
    · rw [idxFind, if_neg hpq] at h
      exact List.mem_cons_of_mem _ (ih h)

/-- Appending entries on the right preserves a successful lookup. -/
theorem idxFind_append_some {P : Type} [DecidableEq P] {l1 : List (P × Nat)} {p : P} {i : Nat}
    (l2 : List (P × Nat)) (h : idxFind l1 p = some i) : idxFind (l1 ++ l2) p = some i := by
  induction l1 with
  | nil => exact Option.noConfusion h
  | cons hd tl ih =>
    obtain ⟨q, j⟩ := hd
    by_cases hpq : p = q
    · rw [idxFind, if_pos hpq] at h
      rw [List.cons_append, idxFind, if_pos hpq]
      exact h
    · rw [idxFind, if_neg hpq] at h
      rw [List.cons_append, idxFind, if_neg hpq]
      exact ih h

/-- A failed lookup defers to the appended entries. -/
theorem idxFind_append_none {P : Type} [DecidableEq P] {l1 : List (P × Nat)} {p : P}
    (l2 : List (P × Nat)) (h : idxFind l1 p = none) : idxFind (l1 ++ l2) p = idxFind l2 p := by
  induction l1 with
  | nil => rfl
  | cons hd tl ih =>
    obtain ⟨q, j⟩ := hd
    by_cases hpq : p = q
    · rw [idxFind, if_pos hpq] at h
      exact Option.noConfusion h
    · rw [idxFind, if_neg hpq] at h
      rw [List.cons_append, idxFind, if_neg hpq]
      exact ih h

namespace Knowledge

variable {P M : Type} [DecidableEq P] [DecidableEq M]

/-- Interning never touches the variations. -/
theorem internK_variations (k : Knowledge P M) (p : P) :
    (internK k p).variations = k.variations := rfl

/-- Creation: `Knowledge::new` establishes the dedup-index invariant. -/
theorem invIndex_new (lib : ChessLib P M) (root : P) : (Knowledge.new lib root).InvIndex := by
  constructor
  · intro i info h
    match i with
    | 0 =>
      obtain rfl := Option.some.inj h
      simp [Knowledge.new, idxFind, PosInfo.new]
    | n + 1 => exact Option.noConfusion h
  · intro p n hmem
    simp only [Knowledge.new, List.mem_singleton, Prod.mk.injEq] at hmem
    obtain ⟨rfl, rfl⟩ := hmem
    exact ⟨PosInfo.new p, rfl, rfl⟩

/-- Interning preserves the dedup-index invariant. -/
theorem invIndex_internK {k : Knowledge P M} (p : P) (hInv : k.InvIndex) :
    (internK k p).InvIndex := by
  obtain ⟨A, B⟩ := hInv
  unfold internK internIdx
  cases hfind : idxFind k.index p with
  | some i =>
    have hmem := idxFind_mem hfind
    obtain ⟨info, hg, hp⟩ := B p i hmem
    have hilt : i < k.positions.length := list_get?_some_lt hg
    simp only [Option.getD_some]
    rw [if_neg (Nat.ne_of_lt hilt)]
    exact ⟨A, B⟩
  | none =>
    simp only [Option.getD_none, eq_self_iff_true, if_true]
    constructor
    · intro i info hi
      replace hi : (k.positions ++ [PosInfo.new p]).get? i = some info := hi
      show idxFind (k.index ++ [(p, k.positions.length)]) info.pos = some i
      rcases Nat.lt_trichotomy i k.positions.length with hlt | heq | hgt
      · rw [List.get?_append hlt] at hi
        exact idxFind_append_some _ (A i info hi)
      · subst heq
        rw [List.get?_concat_length] at hi
        obtain rfl := Option.some.inj hi
        show idxFind (k.index ++ [(p, k.positions.length)]) p = some k.positions.length
        rw [idxFind_append_none _ hfind]
        simp [idxFind]
      · rw [List.get?_eq_none.mpr (by simp; omega)] at hi
        exact Option.noConfusion hi
    · intro q n hmem
      replace hmem : (q, n) ∈ k.index ++ [(p, k.positions.length)] := hmem
      show ∃ info, (k.positions ++ [PosInfo.new p]).get? n = some info ∧ info.pos = q
      rcases List.mem_append.mp hmem with hold | hnew
      · obtain ⟨info, hg, hp⟩ := B q n hold
        have hn := list_get?_some_lt hg
        exact ⟨info, by rw [List.get?_append hn]; exact hg, hp⟩
      · simp only [List.mem_singleton, Prod.mk.injEq] at hnew
        obtain ⟨rfl, rfl⟩ := hnew
        exact ⟨PosInfo.new q, List.get?_concat_length _ _, rfl⟩

/-- After interning, the chosen index holds the interned position (under the
invariant). -/
theorem internK_get?_self {k : Knowledge P M} (p : P) (hInv : k.InvIndex) :
    ∃ info : PosInfo P M,
      (internK k p).positions.get? (internIdx k p) = some info ∧ info.pos = p := by
  obtain ⟨A, B⟩ := hInv
  unfold internK internIdx
  cases hfind : idxFind k.index p with
  | some i =>
    have hmem := idxFind_mem hfind
    obtain ⟨info, hg, hp⟩ := B p i hmem
    have hilt : i < k.positions.length := list_get?_some_lt hg
    simp only [Option.getD_some]
    rw [if_neg (Nat.ne_of_lt hilt)]
    exact ⟨info, hg, hp⟩
  | none =>
    simp only [Option.getD_none, eq_self_iff_true, if_true]
    exact ⟨PosInfo.new p, List.get?_concat_length _ _, rfl⟩

/-- The operation `add_move` preserves the dedup-index invariant. -/
theorem invIndex_add_move {lib : ChessLib P M} {k k' : Knowledge P M}
    {vidx hm v a : Nat} {mov : M}
    (hInv : k.InvIndex) (h : k.add_move lib vidx hm mov = .ok (k', v, a)) :
    k'.InvIndex := by
  unfold add_move at h
  split at h
  · exact Except.noConfusion h
  · split at h
    · split at h
      · split at h
        · exact Except.noConfusion h
        · split at h
          · simp only [Except.ok.injEq, Prod.mk.injEq] at h
            obtain ⟨rfl, -, -⟩ := h
            exact hInv
          · exact Except.noConfusion h
      · split at h
        · split at h
          · exact Except.noConfusion h
          · split at h
            · exact Except.noConfusion h
            · split at h
              · exact Except.noConfusion h
              · simp only [Except.ok.injEq, Prod.mk.injEq] at h
                obtain ⟨rfl, -, -⟩ := h
                exact invIndex_internK _ hInv
        · exact Except.noConfusion h
    · exact Except.noConfusion h

/-- The operation `update_eval` preserves the dedup-index invariant. -/
theorem invIndex_update_eval {k k' : Knowledge P M} {idx : Nat} {e : Score}
    (hInv : k.InvIndex) (h : k.update_eval idx e = some k') : k'.InvIndex := by
  obtain ⟨A, B⟩ := hInv
  unfold update_eval at h
  split at h
  · rename_i info hk
    obtain rfl := Option.some.inj h
    have hset : (k.positions.set idx (info.update_eval e)).get? idx
        = some (info.update_eval e) := by rw [List.get?_set_eq, hk]; rfl
    constructor
    · intro i pinfo hi
      by_cases hii : i = idx
      · subst hii
        rw [hset] at hi
        obtain rfl := Option.some.inj hi
        exact A i info hk
      · rw [List.get?_set_ne _ _ (fun hx => hii hx.symm)] at hi
        exact A i pinfo hi
    · intro p n hmem
      obtain ⟨pinfo, hg, hp⟩ := B p n hmem
      by_cases hn : n = idx
      · subst hn
        rw [hk] at hg
        obtain rfl := Option.some.inj hg
        exact ⟨PosInfo.update_eval info e, hset, hp⟩
      · exact ⟨pinfo, by rw [List.get?_set_ne _ _ (fun hx => hn hx.symm)]; exact hg, hp⟩
  · exact Option.noConfusion h

/-- The operation `update_mainline` preserves the dedup-index invariant. -/
theorem invIndex_update_mainline {k : Knowledge P M} {fidx tidx : Nat}
    (hInv : k.InvIndex) : (k.update_mainline fidx tidx).InvIndex := by
  unfold update_mainline
  split
  · exact hInv
  · exact hInv

/-- Every reachable knowledge satisfies the dedup-index invariant. -/
theorem reachable_invIndex {lib : ChessLib P M} {k : Knowledge P M}
    (h : k.Reachable lib) : k.InvIndex := by
  induction h with
  | new root => exact invIndex_new lib root
  | add_move _ heq ih => exact invIndex_add_move ih heq
  | update_eval _ heq ih => exact invIndex_update_eval ih heq
  | update_mainline _ ih => exact invIndex_update_mainline ih

end Knowledge

/-- Claim C7: extending a variation exactly at its end (`moves.len() == hm`)
when its outcome is already decided fails with "Extending variation beyond
game conclusion"; the check precedes every mutation, so the knowledge is
unchanged (in this embedding an error result carries no successor state,
mirroring that the Rust code bails before touching any field). -/
theorem add_move_beyond_conclusion {P M : Type} [DecidableEq P] [DecidableEq M]
    (lib : ChessLib P M) (k : Knowledge P M) (vidx hm : Nat) (mov : M) (v : Variation M)
    (hv : k.variations.get? vidx = some v)
    (hlen : v.moves.length = hm) (hout : v.outcome.isSome) :
    k.add_move lib vidx hm mov = .error "Extending variation beyond game conclusion" := by
  unfold Knowledge.add_move
  split
  · rename_i hnone
    rw [hv] at hnone
    exact Option.noConfusion hnone
  · rename_i w1 hsome
    rw [hv] at hsome
    obtain rfl := Option.some.inj hsome
    rw [if_pos (le_of_eq hlen.symm)]
    have h2 : v.moves.get? (hm + 1) = none := List.get?_eq_none.mpr (by omega)
    rw [h2, if_neg (by simp : ¬(none : Option M) = some mov)]
    have h3 : ¬(hm < v.moves.length ∨ v.outcome = none) := by
      rintro (hlt | hno)
      · omega
      · rw [hno] at hout
        exact Bool.noConfusion hout
    rw [if_neg h3]

/-- Witness for C7: the root of `toyDrawLib` is already drawn, so the very
first extension attempt is rejected. -/
theorem add_move_beyond_conclusion_witness :
    Knowledge.add_move toyDrawLib (Knowledge.new toyDrawLib 0) 0 0 1
      = .error "Extending variation beyond game conclusion" :=
  add_move_beyond_conclusion toyDrawLib (Knowledge.new toyDrawLib 0) 0 0 1
    (Variation.new (some .draw)) rfl rfl rfl

/-- Claim C8: in every reachable knowledge, distinct position slots hold
distinct chess positions, the dedup index maps each stored position back to
its slot, and every index entry points at the slot holding exactly that
position; hence the slot of a position is independent of the move sequence
that reached it. -/
theorem knowledge_position_dedup {P M : Type} [DecidableEq P] [DecidableEq M]
    (lib : ChessLib P M) (k : Knowledge P M) (h : k.Reachable lib) :
    (∀ i j infoi infoj, k.positions.get? i = some infoi → k.positions.get? j = some infoj →
        infoi.pos = infoj.pos → i = j) ∧
    (∀ i info, k.positions.get? i = some info → idxFind k.index info.pos = some i) ∧
    (∀ p n, (p, n) ∈ k.index → ∃ info, k.positions.get? n = some info ∧ info.pos = p) := by
  obtain ⟨A, B⟩ := Knowledge.reachable_invIndex h
  refine ⟨?_, A, B⟩
  intro i j infoi infoj hi hj hpos
  have h1 := A i infoi hi
  have h2 := A j infoj hj
  rw [hpos] at h1
  rw [h1] at h2
  exact Option.some.inj h2

/-- Witness for C8 at the freshly created knowledge over `toyLib`: the root
is interned at slot 0 and the index maps it back there. -/
theorem knowledge_position_dedup_witness :
    idxFind (Knowledge.new toyLib 0).index (PosInfo.new (M := Nat) (0 : Nat)).pos = some 0 :=
  (knowledge_position_dedup toyLib (Knowledge.new toyLib 0)
    (Knowledge.Reachable.new 0)).2.1 0 (PosInfo.new 0) rfl

/-- Counterexample to claim C6 as stated: `k3ex` is reachable, the call
`add_move(0, 0, 2)` succeeds through the already-included short-circuit and
returns variation 0 with position index 2, yet the returned variation's
outcome is the stored white win although the successor position (slot 2) has
no intrinsic outcome and its index occurs only once in the variation's
positions list — so the claimed rule (which demands `none` here) is false
after this successful `add_move`. -/
theorem add_move_outcome_rule_counterexample :
    Knowledge.Reachable toyLib k3ex ∧
    Knowledge.add_move toyLib k3ex 0 0 2 = .ok (k3ex, 0, 2) ∧
    (k3ex.variations.getD 0 (Variation.new none)).outcome = some (.decisive .white) ∧
    toyLib.outcome (k3ex.positions.getD 2 (PosInfo.new 0)).pos = none ∧
    (k3ex.variations.getD 0 (Variation.new none)).positions.count 2 = 1 := by
  refine ⟨?_, rfl, rfl, rfl, rfl⟩
  have r0 : Knowledge.Reachable toyLib (Knowledge.new toyLib 0) :=
    Knowledge.Reachable.new 0
  have r1 : Knowledge.Reachable toyLib k1ex :=
    Knowledge.Reachable.add_move r0
      (show Knowledge.add_move toyLib (Knowledge.new toyLib 0) 0 0 1 = .ok (k1ex, 0, 1)
        from rfl)
  have r2 :
      Knowledge.Reachable toyLib
        ⟨[⟨0, [], none⟩, ⟨1, [], none⟩, ⟨2, [], none⟩],
         [(0, 0), (1, 1), (2, 2)], [⟨[1, 2], [0, 1, 2], none⟩], 0⟩ :=
    Knowledge.Reachable.add_move r1
      (show Knowledge.add_move toyLib k1ex 0 1 2
          = .ok (⟨[⟨0, [], none⟩, ⟨1, [], none⟩, ⟨2, [], none⟩],
                  [(0, 0), (1, 1), (2, 2)], [⟨[1, 2], [0, 1, 2], none⟩], 0⟩, 0, 2)
        from rfl)
  exact Knowledge.Reachable.add_move r2
    (show Knowledge.add_move toyLib
        ⟨[⟨0, [], none⟩, ⟨1, [], none⟩, ⟨2, [], none⟩],
         [(0, 0), (1, 1), (2, 2)], [⟨[1, 2], [0, 1, 2], none⟩], 0⟩ 0 2 3
        = .ok (k3ex, 0, 3)
      from rfl)

/-- Claim C6 amended: after every successful `add_move` on a reachable
knowledge that actually appends the move (the already-included short-circuit
is not taken), the returned variation's outcome is the successor position's
intrinsic outcome if it has one, otherwise `Draw` iff the successor's
position index now occurs at least three times in the returned variation's
positions list, otherwise `none`. -/
theorem add_move_append_outcome {P M : Type} [DecidableEq P] [DecidableEq M]
    {lib : ChessLib P M} {k k' : Knowledge P M} {vidx hm v a : Nat} {mov : M}
    {variation : Variation M}
    (hreach : k.Reachable lib)
    (hvar : k.variations.get? vidx = some variation)
    (hnot : ¬variation.moves.get? (hm + 1) = some mov)
    (hok : k.add_move lib vidx hm mov = .ok (k', v, a)) :
    ∃ (w : Variation M) (info : PosInfo P M),
      k'.variations.get? v = some w ∧
      k'.positions.get? a = some info ∧
      w.outcome = (match lib.outcome info.pos with
        | some o => some o
        | none => if 3 ≤ w.positions.count a then some Outcome.draw else none) := by
  have hInv := Knowledge.reachable_invIndex hreach
  unfold Knowledge.add_move at hok
  rw [hvar] at hok
  simp only [] at hok
  by_cases hle : hm ≤ variation.moves.length
  case neg => rw [if_neg hle] at hok; exact Except.noConfusion hok
  rw [if_pos hle, if_neg hnot] at hok
  by_cases hcond : hm < variation.moves.length ∨ variation.outcome = none
  case neg => rw [if_neg hcond] at hok; exact Except.noConfusion hok
  rw [if_pos hcond] at hok
  split at hok
  · exact Except.noConfusion hok
  · split at hok
    · exact Except.noConfusion hok
    · split at hok
      · exact Except.noConfusion hok
      · rename_i beforeidx hbefore before hbeforepos afterfen hplay
        simp only [Except.ok.injEq, Prod.mk.injEq] at hok
        obtain ⟨hk', hv', ha⟩ := hok
        subst hk'
        subst hv'
        subst ha
        obtain ⟨info, hginfo, hposeq⟩ := Knowledge.internK_get?_self afterfen hInv
        by_cases hlen : variation.moves.length = hm
        · simp only [if_pos hlen]
          refine ⟨⟨variation.moves ++ [mov],
              variation.positions ++ [Knowledge.internIdx k afterfen],
              match lib.outcome afterfen with
              | some o => some o
              | none =>
                if Variation.repetition ⟨variation.moves ++ [mov],
                    variation.positions ++ [Knowledge.internIdx k afterfen],
                    variation.outcome⟩
                then some Outcome.draw else none⟩, info, ?_, hginfo, ?_⟩
          · show ((Knowledge.internK k afterfen).variations.set vidx _).get? vidx
              = some _
            rw [Knowledge.internK_variations, List.get?_set_eq, hvar]
            rfl
          · rw [hposeq]
            cases ho : lib.outcome afterfen with
            | some o => simp [ho]
            | none =>
              simp [ho, Variation.repetition, List.getLast?_concat]
        · simp only [if_neg hlen]
          refine ⟨⟨variation.moves.take hm ++ [mov],
              variation.positions.take (hm + 1) ++ [Knowledge.internIdx k afterfen],
              match lib.outcome afterfen with
              | some o => some o
              | none =>
                if Variation.repetition ⟨variation.moves.take hm ++ [mov],
                    variation.positions.take (hm + 1) ++ [Knowledge.internIdx k afterfen],
                    none⟩
                then some Outcome.draw else none⟩, info, ?_, hginfo, ?_⟩
          · show ((Knowledge.internK k afterfen).variations ++ [_]).get?
                k.variations.length = some _
            rw [Knowledge.internK_variations]
            exact List.get?_concat_length _ _
          · rw [hposeq]
            cases ho : lib.outcome afterfen with
            | some o => simp [ho]
            | none =>
              simp [ho, Variation.repetition, List.getLast?_concat]

/-- Witness for the amended C6: the first extension from the `toyLib` root
appends move 1, the successor (slot 1) has no intrinsic outcome and occurs
once, so the returned variation's outcome is `none`. -/
theorem add_move_append_outcome_witness :
    ∃ (w : Variation Nat) (info : PosInfo Nat Nat),
      k1ex.variations.get? 0 = some w ∧
      k1ex.positions.get? 1 = some info ∧
      w.outcome = (match toyLib.outcome info.pos with
        | some o => some o
        | none => if 3 ≤ w.positions.count 1 then some Outcome.draw else none) :=
  add_move_append_outcome (Knowledge.Reachable.new 0)
    (show (Knowledge.new toyLib 0).variations.get? 0 = some (Variation.new none) from rfl)
    (by decide)
    (show Knowledge.add_move toyLib (Knowledge.new toyLib 0) 0 0 1 = .ok (k1ex, 0, 1)
      from rfl)

/-- Claim C4: the claim says that once the best move is cached, every further
`info()` call returns `Ok(None)` without consuming engine output.  The code
never consults the cached `best`: with `best` already cached, the next call
reads the stream again — here it consumes and surfaces another parsed info,
and it fails with the receive error on an exhausted stream instead of
returning `Ok(None)`. -/
theorem infostream_info_ignores_cached_best :
    InfoStream.info (B := String) (I := Nat) ⟨some "e2e4"⟩ [UciMsg.info 7]
      = .ok (some 7, ⟨some "e2e4"⟩, []) ∧
    InfoStream.info (B := String) (I := Nat) ⟨some "e2e4"⟩ []
      = .error "Engine stdout closed" :=
  ⟨rfl, rfl⟩

/-- Claim C5: the claim says `write_tags` emits each of the seven header tags
exactly once.  The code writes `[Event "?"]` twice, so the emitted block
differs from the seven-tag block exactly by the duplicated line; the
`write_result` mapping itself matches the claim. -/
theorem write_tags_duplicate_event :
    write_tags "2025.10.12" none true ""
      = "[Event \"?\"]\n" ++ specSevenTags "2025.10.12" "*" ∧
    write_tags "2025.10.12" none true "" ≠ specSevenTags "2025.10.12" "*" ∧
    write_result (some .draw) = "1/2-1/2" ∧
    write_result (some (.decisive .white)) = "1-0" ∧
    write_result (some (.decisive .black)) = "0-1" ∧
    write_result none = "*" :=
  ⟨rfl, by decide, rfl, rfl, rfl, rfl⟩

/-- Scheduling preserves the per-processor conservation law. -/
theorem balanced_schedPos {ps : List ProcState} {sent : List Bool}
    (h : ∀ m ∈ ps, m.balanced) : ∀ m ∈ schedPos ps sent, m.balanced := by
  induction ps generalizing sent with
  | nil => intro m hm; simp [schedPos] at hm
  | cons hd tl ih =>
    intro m hm
    cases sent with
    | nil => simp [schedPos] at hm
    | cons b bs =>
      simp only [schedPos, List.zipWith_cons_cons, List.mem_cons] at hm
      rcases hm with rfl | hm
      · have hb := h hd (List.mem_cons_self _ _)
        unfold schedOne
        split
        · simp only [ProcState.balanced] at hb ⊢
          omega
        · exact hb
      · exact ih (fun m hm => h m (List.mem_cons_of_mem _ hm)) m hm

/-- Membership in a pointwise update: either an untouched element or the
image of the element at the updated slot. -/
theorem mem_updAt {ps : List ProcState} {i : Nat} {f : ProcState → ProcState}
    {x : ProcState} (hx : x ∈ updAt ps i f) :
    x ∈ ps ∨ ∃ m, ps.get? i = some m ∧ x = f m := by
  induction ps generalizing i with
  | nil => simp [updAt] at hx
  | cons hd tl ih =>
    cases i with
    | zero =>
      simp only [updAt, List.mem_cons] at hx
      rcases hx with rfl | hx
      · exact Or.inr ⟨hd, rfl, rfl⟩
      · exact Or.inl (List.mem_cons_of_mem _ hx)
    | succ n =>
      simp only [updAt, List.mem_cons] at hx
      rcases hx with rfl | hx
      · exact Or.inl (List.mem_cons_self _ _)
      · rcases ih hx with hin | ⟨m, hm, hxm⟩
        · exact Or.inl (List.mem_cons_of_mem _ hin)
        · exact Or.inr ⟨m, hm, hxm⟩

/-- Every dispatcher step preserves the conservation law. -/
theorem balanced_step {ps ps' : List ProcState} (hstep : DStep ps ps')
    (h : ∀ m ∈ ps, m.balanced) : ∀ m ∈ ps', m.balanced := by
  cases hstep with
  | sched sent hlen => exact balanced_schedPos h
  | recvSkip i m hm hq =>
    intro x hx
    rcases mem_updAt hx with hin | ⟨m0, hm0, rfl⟩
    · exact h x hin
    · have hb := h m0 (List.get?_mem hm0)
      have hq0 : 0 < m0.queued := by
        rw [hm0] at hm
        obtain rfl := Option.some.inj hm
        exact hq
      simp only [ProcState.balanced] at hb ⊢
      omega
  | recvStart i m hm hq =>
    intro x hx
    rcases mem_updAt hx with hin | ⟨m0, hm0, rfl⟩
    · exact h x hin
    · have hb := h m0 (List.get?_mem hm0)
      have hq0 : 0 < m0.queued := by
        rw [hm0] at hm
        obtain rfl := Option.some.inj hm
        exact hq
      simp only [ProcState.balanced] at hb ⊢
      omega
  | finish i m hm hp =>
    intro x hx
    rcases mem_updAt hx with hin | ⟨m0, hm0, rfl⟩
    · exact h x hin
    · have hb := h m0 (List.get?_mem hm0)
      have hp0 : 0 < m0.processing := by
        rw [hm0] at hm
        obtain rfl := Option.some.inj hm
        exact hp
      simp only [ProcState.balanced] at hb ⊢
      omega

/-- Every reachable dispatcher state satisfies the conservation law. -/
theorem reachable_balanced {n : Nat} {ps : List ProcState} (h : DReach n ps) :
    ∀ m ∈ ps, m.balanced := by
  induction h with
  | init =>
    intro m hm
    obtain rfl := List.eq_of_mem_replicate hm
    rfl
  | step _ hstep ih => exact balanced_step hstep ih

/-- Claim C9: in every reachable dispatcher state, each processor's
`completed` counter is at most its `total` counter, and whenever the loop
guard still holds (`all_done` is false — the only situation in which the
`select!` body, heartbeat arm included, runs) the summed `total` is at least
one, so the heartbeat's `completed * 100 / total` never divides by zero. -/
theorem dispatcher_heartbeat_no_div_zero (n : Nat) (ps : List ProcState)
    (h : DReach n ps) :
    (∀ m ∈ ps, m.completed ≤ m.total) ∧
    (allDone ps = false → 1 ≤ (ps.map ProcState.total).sum) := by
  have hbal := reachable_balanced h
  constructor
  · intro m hm
    have := hbal m hm
    simp only [ProcState.balanced] at this
    omega
  · intro hfalse
    unfold allDone at hfalse
    obtain ⟨m, hm, hne⟩ : ∃ x ∈ ps, ¬((x.total == x.completed) = true) := by
      simpa using List.all_eq_false.mp hfalse
    have hnet : m.total ≠ m.completed := by
      intro hx
      exact hne (by rw [hx]; exact beq_self_eq_true m.completed)
    have hb := hbal m hm
    simp only [ProcState.balanced] at hb
    have h1 : 1 ≤ m.total := by omega
    have h2 : m.total ≤ (ps.map ProcState.total).sum :=
      List.single_le_sum (fun x _ => Nat.zero_le x) m.total
        (List.mem_map_of_mem ProcState.total hm)
    omega

/-- Witness for C9: one freshly built processor after the root scheduling
step has totals `[1]`, so the heartbeat's summed total is at least one. -/
theorem dispatcher_heartbeat_no_div_zero_witness :
    1 ≤ (([⟨1, 0, 1, 0⟩] : List ProcState).map ProcState.total).sum :=
  (dispatcher_heartbeat_no_div_zero 1 [⟨1, 0, 1, 0⟩]
    (DReach.step DReach.init
      (show DStep (List.replicate 1 ⟨0, 0, 0, 0⟩) [⟨1, 0, 1, 0⟩] from
        DStep.sched _ [true] rfl))).2 rfl
